import Mathlib

/-!
# Verification of `dadapy/_utils/metric_comparisons.py`

Shallow embedding of the two functions `_return_ranks` and
`_return_imbalance` from `src/dadapy/_utils/metric_comparisons.py`.

Modelling choices:
* A numpy integer matrix `np.ndarray(int)` of shape `(N, M)` is a
  `List (List ℤ)` of its rows.  `shape[0]` is the list length and
  `shape[1]` the length of the first row (numpy arrays are rectangular).
* The `conditional_ranks` output matrix is created by `np.zeros((N, k))`
  as a float matrix, but every value stored into it is a non-negative
  integer (a `np.where` position or a `np.random.randint` result), and
  these magnitudes are exactly representable, so ranks are modelled as
  `ℕ` and the final imbalance, a float built by exact operations on such
  integers, as `ℚ`.
* The global numpy random source consumed by `np.random.randint` is
  modelled as a stream `g : ℕ → ℕ` of raw draws together with a counter
  threaded through execution: the `c`-th call to `randint` consumes
  `g c`.  `np.random.randint(lo, hi)` returns `lo + (g c) % (hi - lo)`,
  uniform on `[lo, hi)` whenever the underlying draw is uniform, and
  raises `ValueError` when `lo ≥ hi`.
* Python exceptions are `Except PyError`: the failed `assert` on
  `shape[0]` (the spec's `ShapeMismatch`), `IndexError` from
  out-of-bounds integer indexing (the spec's `InvalidParameter`
  condition), and `ValueError` from `np.zeros` with a negative
  dimension or `np.random.randint` with an empty range.
-/

/-- Python exceptions observable in this module: the `assert` on equal row
counts, out-of-bounds indexing of `idx_k_d1`, and `ValueError` from
`np.zeros((N, k))` with `k < 0` or `np.random.randint(lo, hi)` with
`lo ≥ hi`. -/
inductive PyError where
  | shapeMismatch
  | indexError
  | valueError
deriving DecidableEq, Repr

/-- `m.shape[1]` of a rectangular numpy array rendered as its list of rows. -/
def numCols (m : List (List ℤ)) : ℕ := (m.headD []).length

/-- `np.where(v == row)[0]`: the ascending list of the positions of `v` in
`row`. -/
def npWhereEq (v : ℤ) (row : List ℤ) : List ℕ :=
  (List.range row.length).filter fun p => decide (row.getD p 0 = v)

/-- `np.random.randint(lo, hi)` fed one raw draw `r` from the random
stream: `ValueError` when the range `[lo, hi)` is empty, otherwise
`lo + r % (hi - lo)`. -/
def randint (lo hi : ℕ) (r : ℕ) : Except PyError ℕ :=
  if lo < hi then .ok (lo + r % (hi - lo)) else .error .valueError

/-- The comprehension
`wr = [np.where(idx_k_d1[j] == dist_indices_2[i])[0] for j in range(k)]`,
unfolded over an explicit list `js` of the values of `j`; the integer
indexing `idx_k_d1[j]` raises `IndexError` when `j` is out of bounds. -/
def computeWrAux (idx row2 : List ℤ) : List ℕ → Except PyError (List (List ℕ))
  | [] => .ok []
  | j :: js =>
    match idx.get? j with
    | none => .error .indexError
    | some v =>
      match computeWrAux idx row2 js with
      | .error e => .error e
      | .ok rest => .ok (npWhereEq v row2 :: rest)

/-- The `wr` comprehension with `j` running over `range(k)`. -/
def computeWr (idx row2 : List ℤ) (k : ℕ) : Except PyError (List (List ℕ)) :=
  computeWrAux idx row2 (List.range k)

/-- The assignment loop `for k_neighbor in range(k)` of `_return_ranks`:
a miss (`len(wr[k_neighbor]) == 0`) stores `np.random.randint(maxk_2, N)`,
consuming the draw `g c` and advancing the stream counter; a hit stores
`wr[k_neighbor][0]`.  Returns the row of ranks and the final counter. -/
def assignRanks : List (List ℕ) → ℕ → ℕ → (ℕ → ℕ) → ℕ → Except PyError (List ℕ × ℕ)
  | [], _, _, _, c => .ok ([], c)
  | [] :: rest, maxk_2, N, g, c =>
    match randint maxk_2 N (g c) with
    | .error e => .error e
    | .ok r =>
      match assignRanks rest maxk_2 N g (c + 1) with
      | .error e => .error e
      | .ok (rs, c') => .ok (r :: rs, c')
  | (p :: _) :: rest, maxk_2, N, g, c =>
    match assignRanks rest maxk_2 N g c with
    | .error e => .error e
    | .ok (rs, c') => .ok (p :: rs, c')

/-- The body of `for i in range(N)` in `_return_ranks` for one pair of
rows: slice `idx_k_d1 = dist_indices_1[i, 1 : k + 1]`, build `wr`, then
run the assignment loop. -/
def rowRanks (row1 row2 : List ℤ) (k maxk_2 N : ℕ) (g : ℕ → ℕ) (c : ℕ) :
    Except PyError (List ℕ × ℕ) :=
  match computeWr ((row1.drop 1).take k) row2 k with
  | .error e => .error e
  | .ok wr => assignRanks wr maxk_2 N g c

/-- The outer loop of `_return_ranks` over the row pairs, threading the
random-stream counter. -/
def ranksLoop : List (List ℤ × List ℤ) → ℕ → ℕ → ℕ → (ℕ → ℕ) → ℕ →
    Except PyError (List (List ℕ) × ℕ)
  | [], _, _, _, _, c => .ok ([], c)
  | (r1, r2) :: rest, k, maxk_2, N, g, c =>
    match rowRanks r1 r2 k maxk_2 N g c with
    | .error e => .error e
    | .ok (rr, c') =>
      match ranksLoop rest k maxk_2 N g c' with
      | .error e => .error e
      | .ok (rs, c'') => .ok (rr :: rs, c'')

/-- `_return_ranks(dist_indices_1, dist_indices_2, k)`: asserts equal row
counts, builds `conditional_ranks` (`np.zeros((N, k))` raises
`ValueError` for `k < 0`), and fills it row by row.  `g` is the stream of
raw random draws. -/
def return_ranks (dist_indices_1 dist_indices_2 : List (List ℤ)) (k : ℤ)
    (g : ℕ → ℕ) : Except PyError (List (List ℕ)) :=
  if dist_indices_1.length = dist_indices_2.length then
    if k < 0 then .error .valueError
    else
      match ranksLoop (dist_indices_1.zip dist_indices_2) k.toNat
          (numCols dist_indices_2) dist_indices_1.length g 0 with
      | .error e => .error e
      | .ok (res, _) => .ok res
  else .error .shapeMismatch

/-- `np.mean` of a 2-D array: sum of all entries over their number, as a
rational (`0` for the empty array, where numpy returns `nan`). -/
def npMean (m : List (List ℕ)) : ℚ :=
  ((m.map fun row => ((row.map fun x : ℕ => (x : ℚ)).sum)).sum) /
    ((m.map List.length).sum : ℚ)

/-- `_return_imbalance(dist_indices_1, dist_indices_2, k)`: asserts equal
row counts, calls `_return_ranks`, and returns
`np.mean(ranks) / (N / 2.0)`. -/
def return_imbalance (dist_indices_1 dist_indices_2 : List (List ℤ)) (k : ℤ)
    (g : ℕ → ℕ) : Except PyError ℚ :=
  if dist_indices_1.length = dist_indices_2.length then
    match return_ranks dist_indices_1 dist_indices_2 k g with
    | .error e => .error e
    | .ok ranks => .ok (npMean ranks / ((dist_indices_1.length : ℚ) / 2))
  else .error .shapeMismatch

instance {ε α : Type _} [DecidableEq ε] [DecidableEq α] : DecidableEq (Except ε α) := fun x y =>
  match x, y with
  | .error a, .error b =>
    if h : a = b then isTrue (congrArg Except.error h)
    else isFalse fun hc => h (Except.error.inj hc)
  | .error _, .ok _ => isFalse fun hc => Except.noConfusion hc
  | .ok _, .error _ => isFalse fun hc => Except.noConfusion hc
  | .ok a, .ok b =>
    if h : a = b then isTrue (congrArg Except.ok h)
    else isFalse fun hc => h (Except.ok.inj hc)

/-- A constant random stream, used to instantiate `g` in witnesses. -/
def g0 : ℕ → ℕ := fun _ => 0

/-!
## Mutation-explicit model

To state the frame property ("the inputs are never written to") the same
code is rendered once more with the store explicit: a `MemState` holds
the two input arrays, the `conditional_ranks` array being filled, and
the random-stream counter.  The only store instruction in the Python
source is `conditional_ranks[i, k_neighbor] = ...`, rendered as
`setEntry` on the `conditional_ranks` field; every access to the inputs
is a read.
-/

/-- The store of `_return_ranks`: the two input matrices, the output
matrix under construction, and the position of the random stream. -/
structure MemState where
  dist_indices_1 : List (List ℤ)
  dist_indices_2 : List (List ℤ)
  conditional_ranks : List (List ℕ)
  ctr : ℕ
deriving DecidableEq, Repr

/-- The store instruction `conditional_ranks[i, k_neighbor] = v`. -/
def setEntry (m : List (List ℕ)) (i j v : ℕ) : List (List ℕ) :=
  m.set i ((m.getD i []).set j v)

/-- The assignment loop of `_return_ranks` for row `i`, writing each rank
into the store at `(i, k_neighbor)`; `j` is the current `k_neighbor`. -/
def rowWriteLoop : List (List ℕ) → ℕ → ℕ → ℕ → ℕ → (ℕ → ℕ) → MemState →
    Except PyError MemState
  | [], _, _, _, _, _, s => .ok s
  | [] :: rest, i, j, maxk_2, N, g, s =>
    match randint maxk_2 N (g s.ctr) with
    | .error e => .error e
    | .ok r =>
      rowWriteLoop rest i (j + 1) maxk_2 N g
        { s with conditional_ranks := setEntry s.conditional_ranks i j r,
                 ctr := s.ctr + 1 }
  | (p :: _) :: rest, i, j, maxk_2, N, g, s =>
    rowWriteLoop rest i (j + 1) maxk_2 N g
      { s with conditional_ranks := setEntry s.conditional_ranks i j p }

/-- The loop `for i in range(N)` over the store, reading the input rows
and writing only `conditional_ranks`. -/
def stateRowsLoop : List ℕ → ℕ → ℕ → ℕ → (ℕ → ℕ) → MemState →
    Except PyError MemState
  | [], _, _, _, _, s => .ok s
  | i :: rest, k, maxk_2, N, g, s =>
    match computeWr (((s.dist_indices_1.getD i []).drop 1).take k)
        (s.dist_indices_2.getD i []) k with
    | .error e => .error e
    | .ok wr =>
      match rowWriteLoop wr i 0 maxk_2 N g s with
      | .error e => .error e
      | .ok s' => stateRowsLoop rest k maxk_2 N g s'

/-- `_return_ranks` over the explicit store: the shape assertion, the
allocation `conditional_ranks = np.zeros((N, k))`, then the fill loop. -/
def state_return_ranks (s : MemState) (k : ℤ) (g : ℕ → ℕ) :
    Except PyError MemState :=
  if s.dist_indices_1.length = s.dist_indices_2.length then
    if k < 0 then .error .valueError
    else
      stateRowsLoop (List.range s.dist_indices_1.length) k.toNat
        (numCols s.dist_indices_2) s.dist_indices_1.length g
        { s with conditional_ranks :=
            List.replicate s.dist_indices_1.length (List.replicate k.toNat 0) }
  else .error .shapeMismatch

/-- `_return_imbalance` over the explicit store: its only writes happen
inside the call to `_return_ranks`; the mean and the division read the
fresh `conditional_ranks` array. -/
def state_return_imbalance (s : MemState) (k : ℤ) (g : ℕ → ℕ) :
    Except PyError (ℚ × MemState) :=
  if s.dist_indices_1.length = s.dist_indices_2.length then
    match state_return_ranks s k g with
    | .error e => .error e
    | .ok s' =>
      .ok (npMean s'.conditional_ranks / ((s.dist_indices_1.length : ℚ) / 2), s')
  else .error .shapeMismatch

/-! ## Helper lemmas -/

theorem randint_ok {lo hi r x : ℕ} (h : randint lo hi r = .ok x) :
    lo ≤ x ∧ x < hi := by
  unfold randint at h
  split at h
  · next hlt =>
    cases h
    refine ⟨Nat.le_add_right _ _, ?_⟩
    have hmod : r % (hi - lo) < hi - lo := Nat.mod_lt _ (by omega)
    omega
  · cases h

theorem randint_err {lo hi : ℕ} (r : ℕ) (h : hi ≤ lo) :
    randint lo hi r = .error .valueError := by
  unfold randint
  rw [if_neg (by omega)]

theorem randint_ok_lt {lo hi : ℕ} (r : ℕ) (h : lo < hi) :
    randint lo hi r = .ok (lo + r % (hi - lo)) := by
  unfold randint
  rw [if_pos h]

theorem mem_npWhereEq {v : ℤ} {row : List ℤ} {p : ℕ} :
    p ∈ npWhereEq v row ↔ p < row.length ∧ row.getD p 0 = v := by
  unfold npWhereEq
  rw [List.mem_filter, List.mem_range, decide_eq_true_eq]

theorem npWhereEq_eq_nil_iff {v : ℤ} {row : List ℤ} :
    npWhereEq v row = [] ↔ v ∉ row := by
  constructor
  · intro h hv
    obtain ⟨p, hp, hget⟩ := List.mem_iff_getElem.mp hv
    have : p ∈ npWhereEq v row :=
      mem_npWhereEq.mpr ⟨hp, by rw [List.getD_eq_getElem _ _ hp, hget]⟩
    rw [h] at this
    exact absurd this (List.not_mem_nil p)
  · intro h
    by_contra hne
    obtain ⟨p, hp⟩ := List.exists_mem_of_ne_nil _ hne
    obtain ⟨hlt, hget⟩ := mem_npWhereEq.mp hp
    rw [List.getD_eq_getElem _ _ hlt] at hget
    exact h (List.mem_iff_getElem.mpr ⟨p, hlt, hget⟩)

theorem npWhereEq_head {v : ℤ} {row : List ℤ} {q : ℕ} {t : List ℕ}
    (h : npWhereEq v row = q :: t) :
    q < row.length ∧ row.getD q 0 = v ∧ ∀ p, p < q → row.getD p 0 ≠ v := by
  have hqmem : q ∈ npWhereEq v row := by rw [h]; exact List.mem_cons_self _ _
  obtain ⟨hq, hqv⟩ := mem_npWhereEq.mp hqmem
  refine ⟨hq, hqv, ?_⟩
  intro p hpq hpv
  have hpmem : p ∈ npWhereEq v row := mem_npWhereEq.mpr ⟨by omega, hpv⟩
  have hpw : (npWhereEq v row).Pairwise (· < ·) :=
    List.Pairwise.filter _ (List.pairwise_lt_range _)
  rw [h] at hpw hpmem
  rcases List.mem_cons.mp hpmem with rfl | hpt
  · omega
  · have := (List.pairwise_cons.mp hpw).1 p hpt
    omega

theorem npWhereEq_self {row : List ℤ} (hnd : row.Nodup) {p : ℕ}
    (hp : p < row.length) :
    npWhereEq (row.getD p 0) row ≠ [] ∧
      (npWhereEq (row.getD p 0) row).headD 0 = p := by
  have hmem : p ∈ npWhereEq (row.getD p 0) row := mem_npWhereEq.mpr ⟨hp, rfl⟩
  rcases hw : npWhereEq (row.getD p 0) row with _ | ⟨q, t⟩
  · rw [hw] at hmem
    exact absurd hmem (List.not_mem_nil p)
  · obtain ⟨hq, hqv, _⟩ := npWhereEq_head hw
    refine ⟨by simp, ?_⟩
    have h1 : row[q]? = some (row.getD p 0) := by
      rw [List.getElem?_eq_getElem hq]
      rw [List.getD_eq_getElem _ _ hq] at hqv
      rw [hqv]
    have h2 : row[p]? = some (row.getD p 0) := by
      rw [List.getElem?_eq_getElem hp, List.getD_eq_getElem _ _ hp]
    have := List.getElem?_inj hq hnd (h1.trans h2.symm)
    simp [this]

theorem computeWrAux_ok_of_lt {idx row2 : List ℤ} {js : List ℕ}
    (h : ∀ j ∈ js, j < idx.length) :
    computeWrAux idx row2 js =
      .ok (js.map fun j => npWhereEq (idx.getD j 0) row2) := by
  induction js with
  | nil => rfl
  | cons j js ih =>
    have hj : j < idx.length := h j (List.mem_cons_self _ _)
    have hget : idx.get? j = some (idx.getD j 0) := by
      rw [List.get?_eq_getElem?, List.getElem?_eq_getElem hj,
        List.getD_eq_getElem _ _ hj]
    simp only [computeWrAux, hget,
      ih fun a ha => h a (List.mem_cons_of_mem _ ha), List.map_cons]

theorem computeWrAux_ok_inv {idx row2 : List ℤ} {js : List ℕ}
    {wr : List (List ℕ)} (h : computeWrAux idx row2 js = .ok wr) :
    (∀ j ∈ js, j < idx.length) ∧
      wr = js.map fun j => npWhereEq (idx.getD j 0) row2 := by
  induction js generalizing wr with
  | nil =>
    cases h
    exact ⟨fun j hj => absurd hj (List.not_mem_nil j), rfl⟩
  | cons j js ih =>
    unfold computeWrAux at h
    cases hg : idx.get? j with
    | none => rw [hg] at h; cases h
    | some v =>
      rw [hg] at h
      cases hrec : computeWrAux idx row2 js with
      | error e => rw [hrec] at h; cases h
      | ok rest =>
        rw [hrec] at h
        cases h
        obtain ⟨h1, h2⟩ := ih hrec
        have hj : j < idx.length := by
          by_contra hc
          rw [List.get?_eq_getElem?, List.getElem?_eq_none (by omega)] at hg
          cases hg
        have hv : v = idx.getD j 0 := by
          rw [List.get?_eq_getElem?, List.getElem?_eq_getElem hj] at hg
          rw [List.getD_eq_getElem _ _ hj]
          exact (Option.some.inj hg).symm
        constructor
        · intro a ha
          rcases List.mem_cons.mp ha with rfl | ha'
          · exact hj
          · exact h1 a ha'
        · rw [List.map_cons, ← h2, hv]

theorem computeWrAux_err {idx row2 : List ℤ} {js : List ℕ}
    (h : ∃ j ∈ js, idx.length ≤ j) :
    computeWrAux idx row2 js = .error .indexError := by
  induction js with
  | nil =>
    obtain ⟨j, hj, _⟩ := h
    exact absurd hj (List.not_mem_nil j)
  | cons j js ih =>
    by_cases hj : j < idx.length
    · have hget : idx.get? j = some (idx.getD j 0) := by
        rw [List.get?_eq_getElem?, List.getElem?_eq_getElem hj,
          List.getD_eq_getElem _ _ hj]
      obtain ⟨a, ha, hle⟩ := h
      rcases List.mem_cons.mp ha with rfl | ha'
      · omega
      · simp only [computeWrAux, hget, ih ⟨a, ha', hle⟩]
    · have hget : idx.get? j = none := by
        rw [List.get?_eq_getElem?]
        exact List.getElem?_eq_none (by omega)
      simp only [computeWrAux, hget]

theorem computeWr_ok_of_le {idx row2 : List ℤ} {k : ℕ} (h : k ≤ idx.length) :
    computeWr idx row2 k =
      .ok ((List.range k).map fun j => npWhereEq (idx.getD j 0) row2) :=
  computeWrAux_ok_of_lt fun j hj => by
    rw [List.mem_range] at hj
    omega

theorem computeWr_ok_inv {idx row2 : List ℤ} {k : ℕ} {wr : List (List ℕ)}
    (h : computeWr idx row2 k = .ok wr) :
    k ≤ idx.length ∧
      wr = (List.range k).map fun j => npWhereEq (idx.getD j 0) row2 := by
  obtain ⟨h1, h2⟩ := computeWrAux_ok_inv h
  refine ⟨?_, h2⟩
  cases k with
  | zero => omega
  | succ n =>
    have := h1 n (List.mem_range.mpr (by omega))
    omega

theorem computeWr_err {idx row2 : List ℤ} {k : ℕ} (h : idx.length < k) :
    computeWr idx row2 k = .error .indexError :=
  computeWrAux_err ⟨idx.length, List.mem_range.mpr h, le_refl _⟩

theorem assignRanks_all_hits {wr : List (List ℕ)} {m N : ℕ} {g : ℕ → ℕ}
    {c : ℕ} (h : ∀ w ∈ wr, w ≠ []) :
    assignRanks wr m N g c = .ok (wr.map fun w => w.headD 0, c) := by
  induction wr generalizing c with
  | nil => rfl
  | cons w rest ih =>
    cases w with
    | nil => exact absurd rfl (h [] (List.mem_cons_self _ _))
    | cons p t =>
      simp only [assignRanks, ih fun a ha => h a (List.mem_cons_of_mem _ ha),
        List.map_cons, List.headD_cons]

theorem assignRanks_ok_inv {wr : List (List ℕ)} {m N : ℕ} {g : ℕ → ℕ}
    {c c' : ℕ} {rs : List ℕ} (h : assignRanks wr m N g c = .ok (rs, c')) :
    rs.length = wr.length ∧ c ≤ c' ∧ ∀ (j : ℕ) (w : List ℕ), wr[j]? = some w →
      ∃ x, rs[j]? = some x ∧
        (w ≠ [] → x = w.headD 0) ∧
        (w = [] → ∃ cc, randint m N (g cc) = .ok x) := by
  induction wr generalizing c rs with
  | nil =>
    cases h
    refine ⟨rfl, le_refl _, ?_⟩
    intro j w hw
    simp at hw
  | cons w rest ih =>
    cases w with
    | nil =>
      unfold assignRanks at h
      cases hr : randint m N (g c) with
      | error e => rw [hr] at h; cases h
      | ok r =>
        rw [hr] at h
        cases hrec : assignRanks rest m N g (c + 1) with
        | error e => rw [hrec] at h; cases h
        | ok pr =>
          obtain ⟨rs', c''⟩ := pr
          rw [hrec] at h
          cases h
          obtain ⟨hl, hc, hspec⟩ := ih hrec
          refine ⟨by simp [hl], by omega, ?_⟩
          intro j w hw
          cases j with
          | zero =>
            simp only [List.getElem?_cons_zero] at hw
            cases hw
            exact ⟨r, List.getElem?_cons_zero, fun hne => absurd rfl hne,
              fun _ => ⟨c, hr⟩⟩
          | succ n =>
            simp only [List.getElem?_cons_succ] at hw ⊢
            exact hspec n w hw
    | cons p t =>
      unfold assignRanks at h
      cases hrec : assignRanks rest m N g c with
      | error e => rw [hrec] at h; cases h
      | ok pr =>
        obtain ⟨rs', c''⟩ := pr
        rw [hrec] at h
        cases h
        obtain ⟨hl, hc, hspec⟩ := ih hrec
        refine ⟨by simp [hl], hc, ?_⟩
        intro j w hw
        cases j with
        | zero =>
          simp only [List.getElem?_cons_zero] at hw
          cases hw
          exact ⟨p, List.getElem?_cons_zero, fun _ => rfl,
            fun he => (List.cons_ne_nil p t he).elim⟩
        | succ n =>
          simp only [List.getElem?_cons_succ] at hw ⊢
          exact hspec n w hw

theorem assignRanks_miss_err {wr : List (List ℕ)} {m N : ℕ} {g : ℕ → ℕ}
    {c : ℕ} (hmem : [] ∈ wr) (hN : N ≤ m) :
    assignRanks wr m N g c = .error .valueError := by
  induction wr generalizing c with
  | nil => exact absurd hmem (List.not_mem_nil _)
  | cons w rest ih =>
    cases w with
    | nil => simp only [assignRanks, randint_err _ hN]
    | cons p t =>
      have hmem' : [] ∈ rest := by
        rcases List.mem_cons.mp hmem with he | h'
        · exact (List.cons_ne_nil p t he.symm).elim
        · exact h'
      simp only [assignRanks, ih hmem']

theorem getD_of_getElem? {α : Type _} {l : List α} {i : ℕ} {x d : α}
    (h : l[i]? = some x) : l.getD i d = x := by
  have hi : i < l.length := by
    by_contra hc
    rw [List.getElem?_eq_none (by omega)] at h
    cases h
  rw [List.getElem?_eq_getElem hi] at h
  rw [List.getD_eq_getElem _ _ hi]
  exact Option.some.inj h

theorem slice_getElem? {row1 : List ℤ} {k j : ℕ} (hj : j < k) :
    ((row1.drop 1).take k)[j]? = row1[1 + j]? := by
  rw [List.getElem?_take_of_lt hj, List.getElem?_drop]

theorem rowRanks_ok_inv {r1 r2 : List ℤ} {k m N : ℕ} {g : ℕ → ℕ} {c c' : ℕ}
    {rs : List ℕ} (h : rowRanks r1 r2 k m N g c = .ok (rs, c')) :
    rs.length = k ∧ c ≤ c' ∧ ∀ j, j < k →
      ∃ v x, r1[j + 1]? = some v ∧ rs[j]? = some x ∧
        (npWhereEq v r2 ≠ [] → x = (npWhereEq v r2).headD 0) ∧
        (npWhereEq v r2 = [] → ∃ cc, randint m N (g cc) = .ok x) := by
  unfold rowRanks at h
  cases hw : computeWr ((r1.drop 1).take k) r2 k with
  | error e => rw [hw] at h; cases h
  | ok wr =>
    rw [hw] at h
    obtain ⟨hk, hwr⟩ := computeWr_ok_inv hw
    obtain ⟨hl, hc, hspec⟩ := assignRanks_ok_inv h
    have hwlen : wr.length = k := by rw [hwr]; simp
    refine ⟨by rw [hl, hwlen], hc, ?_⟩
    intro j hj
    have hjidx : j < ((r1.drop 1).take k).length := by omega
    have hgetidx : ((r1.drop 1).take k)[j]? =
        some (((r1.drop 1).take k).getD j 0) := by
      rw [List.getElem?_eq_getElem hjidx, List.getD_eq_getElem _ _ hjidx]
    have hv : r1[j + 1]? = some (((r1.drop 1).take k).getD j 0) := by
      rw [Nat.add_comm j 1, ← slice_getElem? hj]
      exact hgetidx
    have hwj : wr[j]? = some (npWhereEq (((r1.drop 1).take k).getD j 0) r2) := by
      rw [hwr, List.getElem?_map, List.getElem?_range hj, Option.map_some']
    obtain ⟨x, hx, hhit, hmiss⟩ := hspec j _ hwj
    exact ⟨_, x, hv, hx, hhit, hmiss⟩

theorem ranksLoop_ok_inv {rows : List (List ℤ × List ℤ)} {k m N : ℕ}
    {g : ℕ → ℕ} {c c' : ℕ} {R : List (List ℕ)}
    (h : ranksLoop rows k m N g c = .ok (R, c')) :
    R.length = rows.length ∧ ∀ (i : ℕ) (pr : List ℤ × List ℤ),
      rows[i]? = some pr →
      ∃ rr ci ci', R[i]? = some rr ∧
        rowRanks pr.1 pr.2 k m N g ci = .ok (rr, ci') := by
  induction rows generalizing c R with
  | nil =>
    cases h
    refine ⟨rfl, ?_⟩
    intro i pr hi
    simp at hi
  | cons pr0 rest ih =>
    obtain ⟨r1, r2⟩ := pr0
    unfold ranksLoop at h
    split at h
    · cases h
    · next rr c1 hrow =>
      split at h
      · cases h
      · next rs c2 hrec =>
        cases h
        obtain ⟨hlen, hspec⟩ := ih hrec
        refine ⟨by simp [hlen], ?_⟩
        intro i pr hi
        cases i with
        | zero =>
          simp only [List.getElem?_cons_zero] at hi
          cases hi
          exact ⟨rr, c, c1, List.getElem?_cons_zero, hrow⟩
        | succ n =>
          simp only [List.getElem?_cons_succ] at hi ⊢
          exact hspec n pr hi

theorem return_ranks_ok_inv {d1 d2 : List (List ℤ)} {k : ℤ} {g : ℕ → ℕ}
    {R : List (List ℕ)} (h : return_ranks d1 d2 k g = .ok R) :
    d1.length = d2.length ∧ 0 ≤ k ∧ R.length = d1.length ∧
      ∀ (i : ℕ) (r1 r2 : List ℤ), d1[i]? = some r1 → d2[i]? = some r2 →
        ∃ rr ci ci', R[i]? = some rr ∧
          rowRanks r1 r2 k.toNat (numCols d2) d1.length g ci = .ok (rr, ci') := by
  unfold return_ranks at h
  split at h
  · next hlen =>
    split at h
    · cases h
    · next hk =>
      cases hloop : ranksLoop (d1.zip d2) k.toNat (numCols d2) d1.length g 0 with
      | error e => rw [hloop] at h; cases h
      | ok q =>
        obtain ⟨res, cfin⟩ := q
        rw [hloop] at h
        cases h
        obtain ⟨hRlen, hspec⟩ := ranksLoop_ok_inv hloop
        refine ⟨hlen, by omega, ?_, ?_⟩
        · rw [hRlen, List.length_zip, hlen, min_self]
        · intro i r1 r2 h1 h2
          have hzip : (d1.zip d2)[i]? = some (r1, r2) :=
            List.getElem?_zip_eq_some.mpr ⟨h1, h2⟩
          exact hspec i (r1, r2) hzip
  · cases h

theorem getD_mem_of_lt {α : Type _} {l : List α} {j : ℕ} {d : α}
    (hj : j < l.length) : l.getD j d ∈ l := by
  rw [List.getD_eq_getElem _ _ hj]
  exact List.mem_iff_getElem.mpr ⟨j, hj, rfl⟩

theorem rowRanks_g_indep {r1 r2 : List ℤ} {k m N : ℕ} (g g' : ℕ → ℕ)
    (h : ∀ v ∈ (r1.drop 1).take k, v ∈ r2) : ∀ c,
    rowRanks r1 r2 k m N g c = rowRanks r1 r2 k m N g' c := by
  intro c
  cases hw : computeWr ((r1.drop 1).take k) r2 k with
  | error e => simp only [rowRanks, hw]
  | ok wr =>
    obtain ⟨hk, hwr⟩ := computeWr_ok_inv hw
    have hne : ∀ w ∈ wr, w ≠ [] := by
      intro w hwmem
      rw [hwr] at hwmem
      obtain ⟨j, hj, rfl⟩ := List.mem_map.mp hwmem
      rw [List.mem_range] at hj
      intro hnil
      exact npWhereEq_eq_nil_iff.mp hnil (h _ (getD_mem_of_lt (by omega)))
    simp only [rowRanks, hw, assignRanks_all_hits hne]

theorem ranksLoop_g_indep {rows : List (List ℤ × List ℤ)} {k m N : ℕ}
    (g g' : ℕ → ℕ)
    (h : ∀ pr ∈ rows, ∀ v ∈ (pr.1.drop 1).take k, v ∈ pr.2) : ∀ c,
    ranksLoop rows k m N g c = ranksLoop rows k m N g' c := by
  induction rows with
  | nil => intro c; rfl
  | cons pr0 rest ih =>
    intro c
    obtain ⟨r1, r2⟩ := pr0
    have hh : ∀ v ∈ (r1.drop 1).take k, v ∈ r2 :=
      h (r1, r2) (List.mem_cons_self _ _)
    simp only [ranksLoop, rowRanks_g_indep g g' hh,
      ih fun pr hpr => h pr (List.mem_cons_of_mem _ hpr)]

theorem rowRanks_self {r : List ℤ} {k m N : ℕ} {g : ℕ → ℕ}
    (hnd : r.Nodup) (hlen : k + 1 ≤ r.length) (c : ℕ) :
    rowRanks r r k m N g c = .ok ((List.range k).map fun j => j + 1, c) := by
  have hidxlen : ((r.drop 1).take k).length = k := by
    rw [List.length_take, List.length_drop]
    omega
  have hentry : ∀ j, j < k →
      ((r.drop 1).take k).getD j 0 = r.getD (j + 1) 0 := by
    intro j hj
    have h1 : ((r.drop 1).take k)[j]? = r[1 + j]? := slice_getElem? hj
    have hjlen : j < ((r.drop 1).take k).length := by omega
    rw [Nat.add_comm 1 j] at h1
    rw [List.getElem?_eq_getElem hjlen,
      List.getElem?_eq_getElem (show j + 1 < r.length by omega)] at h1
    rw [List.getD_eq_getElem _ _ hjlen,
      List.getD_eq_getElem _ _ (show j + 1 < r.length by omega)]
    exact Option.some.inj h1
  have hok : computeWr ((r.drop 1).take k) r k =
      .ok ((List.range k).map fun j =>
        npWhereEq (((r.drop 1).take k).getD j 0) r) :=
    computeWr_ok_of_le (by omega)
  have hne : ∀ w ∈ (List.range k).map fun j =>
      npWhereEq (((r.drop 1).take k).getD j 0) r, w ≠ [] := by
    intro w hw
    obtain ⟨j, hj, rfl⟩ := List.mem_map.mp hw
    rw [List.mem_range] at hj
    rw [hentry j hj]
    exact (npWhereEq_self hnd (by omega)).1
  have hmap : ((List.range k).map fun j =>
        npWhereEq (((r.drop 1).take k).getD j 0) r).map (fun w => w.headD 0) =
      (List.range k).map fun j => j + 1 := by
    rw [List.map_map]
    refine List.map_congr_left ?_
    intro j hj
    rw [List.mem_range] at hj
    simp only [Function.comp_apply]
    rw [hentry j hj]
    exact (npWhereEq_self hnd (by omega)).2
  simp only [rowRanks, hok, assignRanks_all_hits hne, hmap]

theorem ranksLoop_self {l : List (List ℤ)} {k m N : ℕ} {g : ℕ → ℕ}
    (h : ∀ r ∈ l, r.Nodup ∧ k + 1 ≤ r.length) : ∀ c,
    ranksLoop (l.zip l) k m N g c =
      .ok (List.replicate l.length ((List.range k).map fun j => j + 1), c) := by
  induction l with
  | nil => intro c; rfl
  | cons r rest ih =>
    intro c
    obtain ⟨hnd, hlen⟩ := h r (List.mem_cons_self _ _)
    have hih := ih fun a ha => h a (List.mem_cons_of_mem _ ha)
    have hz : List.zipWith Prod.mk rest rest = rest.zip rest := rfl
    simp only [List.zip_cons_cons, ranksLoop, rowRanks_self hnd hlen c, hz,
      hih c, List.length_cons, List.replicate_succ]

theorem return_ranks_shape {d1 d2 : List (List ℤ)} {k : ℤ} {g : ℕ → ℕ}
    {R : List (List ℕ)} (h : return_ranks d1 d2 k g = .ok R) :
    R.length = d1.length ∧ ∀ row ∈ R, row.length = k.toNat := by
  obtain ⟨hlen, _, hRlen, hspec⟩ := return_ranks_ok_inv h
  refine ⟨hRlen, ?_⟩
  intro row hrow
  obtain ⟨i, hi, rfl⟩ := List.mem_iff_getElem.mp hrow
  have hi1 : i < d1.length := by omega
  have hi2 : i < d2.length := by omega
  obtain ⟨rr, ci, ci', hR, hrr⟩ := hspec i _ _
    (List.getElem?_eq_getElem hi1) (List.getElem?_eq_getElem hi2)
  obtain ⟨hrslen, _, _⟩ := rowRanks_ok_inv hrr
  rw [List.getElem?_eq_getElem hi] at hR
  rw [Option.some.inj hR]
  exact hrslen

theorem ranksLoop_zero {rows : List (List ℤ × List ℤ)} {m N : ℕ}
    {g : ℕ → ℕ} : ∀ c,
    ranksLoop rows 0 m N g c = .ok (List.replicate rows.length [], c) := by
  induction rows with
  | nil => intro c; rfl
  | cons pr rest ih =>
    intro c
    obtain ⟨r1, r2⟩ := pr
    simp only [ranksLoop, rowRanks, computeWr, List.range_zero, computeWrAux,
      assignRanks, ih c, List.length_cons, List.replicate_succ]

theorem ranksLoop_head_err {r1 r2 : List ℤ} {rest : List (List ℤ × List ℤ)}
    {k m N : ℕ} {g : ℕ → ℕ} {c : ℕ} {e : PyError}
    (h : rowRanks r1 r2 k m N g c = .error e) :
    ranksLoop ((r1, r2) :: rest) k m N g c = .error e := by
  simp only [ranksLoop, h]

theorem rowRanks_err_short {r1 r2 : List ℤ} {k m N : ℕ} {g : ℕ → ℕ} {c : ℕ}
    (h : ((r1.drop 1).take k).length < k) :
    rowRanks r1 r2 k m N g c = .error .indexError := by
  simp only [rowRanks, computeWr_err h]

theorem rowRanks_err_miss {r1 r2 : List ℤ} {k m N : ℕ} {g : ℕ → ℕ} {c : ℕ}
    {v : ℤ} (hk : 1 ≤ k) (hlen : k ≤ ((r1.drop 1).take k).length)
    (hv : r1[1]? = some v) (hmiss : v ∉ r2) (hN : N ≤ m) :
    rowRanks r1 r2 k m N g c = .error .valueError := by
  simp only [rowRanks, computeWr_ok_of_le hlen]
  refine assignRanks_miss_err ?_ hN
  refine List.mem_map.mpr ⟨0, List.mem_range.mpr (by omega), ?_⟩
  have h0 : ((r1.drop 1).take k).getD 0 0 = v :=
    getD_of_getElem? (by rw [slice_getElem? (by omega : 0 < k)]; exact hv)
  rw [h0, npWhereEq_eq_nil_iff.mpr hmiss]

theorem return_imbalance_eq_map {d1 d2 : List (List ℤ)} {k : ℤ} {g : ℕ → ℕ} :
    return_imbalance d1 d2 k g =
      Except.map (fun R => npMean R / ((d1.length : ℚ) / 2))
        (return_ranks d1 d2 k g) := by
  unfold return_imbalance
  by_cases hlen : d1.length = d2.length
  · rw [if_pos hlen]
    cases hR : return_ranks d1 d2 k g with
    | error e => rfl
    | ok R => rfl
  · rw [if_neg hlen]
    have hR : return_ranks d1 d2 k g = .error .shapeMismatch := by
      unfold return_ranks
      rw [if_neg hlen]
    rw [hR]
    rfl

theorem rowWriteLoop_frame {wr : List (List ℕ)} {i j maxk_2 N : ℕ}
    {g : ℕ → ℕ} {s s' : MemState}
    (h : rowWriteLoop wr i j maxk_2 N g s = .ok s') :
    s'.dist_indices_1 = s.dist_indices_1 ∧
      s'.dist_indices_2 = s.dist_indices_2 := by
  induction wr generalizing j s with
  | nil =>
    cases h
    exact ⟨rfl, rfl⟩
  | cons w rest ih =>
    cases w with
    | nil =>
      unfold rowWriteLoop at h
      split at h
      · cases h
      · have hh := ih h
        exact hh
    | cons p t =>
      unfold rowWriteLoop at h
      have hh := ih h
      exact hh

theorem stateRowsLoop_frame {is : List ℕ} {k maxk_2 N : ℕ} {g : ℕ → ℕ}
    {s s' : MemState}
    (h : stateRowsLoop is k maxk_2 N g s = .ok s') :
    s'.dist_indices_1 = s.dist_indices_1 ∧
      s'.dist_indices_2 = s.dist_indices_2 := by
  induction is generalizing s with
  | nil =>
    cases h
    exact ⟨rfl, rfl⟩
  | cons i rest ih =>
    unfold stateRowsLoop at h
    split at h
    · cases h
    · split at h
      · cases h
      · next s1 hs1 =>
        obtain ⟨h1, h2⟩ := ih h
        obtain ⟨h3, h4⟩ := rowWriteLoop_frame hs1
        exact ⟨h1.trans h3, h2.trans h4⟩

theorem state_return_ranks_frame {s s' : MemState} {k : ℤ} {g : ℕ → ℕ}
    (h : state_return_ranks s k g = .ok s') :
    s'.dist_indices_1 = s.dist_indices_1 ∧
      s'.dist_indices_2 = s.dist_indices_2 := by
  unfold state_return_ranks at h
  split at h
  · split at h
    · cases h
    · have hh := stateRowsLoop_frame h
      exact hh
  · cases h

theorem state_return_imbalance_frame {s s' : MemState} {q : ℚ} {k : ℤ}
    {g : ℕ → ℕ} (h : state_return_imbalance s k g = .ok (q, s')) :
    s'.dist_indices_1 = s.dist_indices_1 ∧
      s'.dist_indices_2 = s.dist_indices_2 := by
  unfold state_return_imbalance at h
  split at h
  · split at h
    · cases h
    · next s1 hs1 =>
      cases h
      exact state_return_ranks_frame hs1
  · cases h

/-- A second random stream, used to instantiate determinism statements. -/
def g1 : ℕ → ℕ := fun n => n + 7

/-! ## Claims -/

/-- Claim C2: for every input pair and every k, `_return_imbalance` returns
exactly the mean of all the N·k entries of the conditional-rank matrix
produced by `_return_ranks` on the same inputs (and the same random
stream), divided by N/2; on success the rank matrix indeed holds
`N * k` entries. -/
theorem claim_C2_imbalance_is_mean_over_half_N (d1 d2 : List (List ℤ))
    (k : ℤ) (g : ℕ → ℕ) :
    return_imbalance d1 d2 k g =
      Except.map (fun R => npMean R / ((d1.length : ℚ) / 2))
        (return_ranks d1 d2 k g) ∧
    ∀ R, return_ranks d1 d2 k g = .ok R →
      (R.map List.length).sum = d1.length * k.toNat := by
  refine ⟨return_imbalance_eq_map, ?_⟩
  intro R hR
  obtain ⟨hlen, hall⟩ := return_ranks_shape hR
  have hx : ∀ x ∈ R.map List.length, x = k.toNat := by
    intro x hxm
    obtain ⟨row, hrow, rfl⟩ := List.mem_map.mp hxm
    exact hall row hrow
  rw [List.sum_eq_card_nsmul _ _ hx, List.length_map, hlen, smul_eq_mul]

theorem claim_C2_imbalance_is_mean_over_half_N_witness :
    return_imbalance [[0, 1, 2], [1, 0, 2]] [[0, 2, 1], [1, 2, 0]] 2 g0 =
      Except.map (fun R => npMean R /
          ((([[0, 1, 2], [1, 0, 2]] : List (List ℤ)).length : ℚ) / 2))
        (return_ranks [[0, 1, 2], [1, 0, 2]] [[0, 2, 1], [1, 2, 0]] 2 g0) ∧
    (([[2, 1], [2, 1]] : List (List ℕ)).map List.length).sum =
      ([[0, 1, 2], [1, 0, 2]] : List (List ℤ)).length * (2 : ℤ).toNat :=
  ⟨(claim_C2_imbalance_is_mean_over_half_N [[0, 1, 2], [1, 0, 2]]
      [[0, 2, 1], [1, 2, 0]] 2 g0).1,
   (claim_C2_imbalance_is_mean_over_half_N [[0, 1, 2], [1, 0, 2]]
      [[0, 2, 1], [1, 2, 0]] 2 g0).2 [[2, 1], [2, 1]] (by decide)⟩

/-- Claim C4, amended.  The claim said any non-positive k or k > M1-1
fails immediately with an `InvalidParameter` error.  On the code: for
`k > M1 - 1` (with at least one row and at least one column) the slice
`dist_indices_1[i, 1:k+1]` silently truncates and the subsequent integer
indexing `idx_k_d1[k_neighbor]` raises `IndexError` (the spec's
`InvalidParameter` condition); for negative k, `np.zeros((N, k))` raises
`ValueError`; but for `k = 0` no check fires and the function silently
returns an N×0 matrix — refuting the "non-positive" half of the claim. -/
theorem claim_C4_invalid_k (d1 d2 : List (List ℤ)) (k : ℤ) (g : ℕ → ℕ)
    (hlen : d1.length = d2.length) :
    (1 ≤ d1.length → 1 ≤ numCols d1 → (numCols d1 : ℤ) ≤ k →
      return_ranks d1 d2 k g = .error .indexError) ∧
    (k < 0 → return_ranks d1 d2 k g = .error .valueError) ∧
    return_ranks d1 d2 0 g = .ok (List.replicate d1.length []) := by
  refine ⟨?_, ?_, ?_⟩
  · intro hN hM hk
    cases d1 with
    | nil => simp at hN
    | cons r0 t1 =>
      cases d2 with
      | nil => simp at hlen
      | cons s0 t2 =>
        have hM' : numCols (r0 :: t1) = r0.length := rfl
        have hr0 : 1 ≤ r0.length := by
          rw [hM'] at hM
          exact hM
        have hkN : r0.length ≤ k.toNat := by
          rw [hM'] at hk
          omega
        have hshort : ((r0.drop 1).take k.toNat).length < k.toNat := by
          rw [List.length_take, List.length_drop]
          omega
        simp only [return_ranks, if_pos hlen, if_neg (show ¬k < 0 by omega),
          List.zip_cons_cons,
          ranksLoop_head_err (rowRanks_err_short hshort)]
  · intro hk
    unfold return_ranks
    rw [if_pos hlen, if_pos hk]
  · simp only [return_ranks, if_pos hlen, if_neg (show ¬(0 : ℤ) < 0 by omega),
      Int.toNat_zero, ranksLoop_zero, List.length_zip, hlen, min_self,
      eq_self_iff_true, if_true]

/-- Claim C4 counterexample: with k = 0 (non-positive), `_return_ranks`
does not fail: it silently returns an N×0 result matrix. -/
theorem claim_C4_counterexample :
    return_ranks [[0]] [[0]] 0 g0 = .ok [[]] ∧
    return_ranks [[0]] [[0]] 0 g0 ≠ .error .indexError ∧
    return_ranks [[0]] [[0]] 0 g0 ≠ .error .valueError := by
  refine ⟨by decide, by decide, by decide⟩

theorem claim_C4_invalid_k_witness :
    return_ranks [[0, 1], [1, 0]] [[0, 1], [1, 0]] 5 g0 = .error .indexError ∧
    return_ranks [[0, 1], [1, 0]] [[0, 1], [1, 0]] (-1) g0 =
      .error .valueError ∧
    return_ranks [[0, 1], [1, 0]] [[0, 1], [1, 0]] 0 g0 =
      .ok (List.replicate 2 []) :=
  ⟨(claim_C4_invalid_k [[0, 1], [1, 0]] [[0, 1], [1, 0]] 5 g0 rfl).1
      (by decide) (by decide) (by decide),
   (claim_C4_invalid_k [[0, 1], [1, 0]] [[0, 1], [1, 0]] (-1) g0 rfl).2.1
      (by decide),
   (claim_C4_invalid_k [[0, 1], [1, 0]] [[0, 1], [1, 0]] 0 g0 rfl).2.2⟩

/-- Claim C5: on matrices with differing row counts, both `_return_ranks`
and `_return_imbalance` fail immediately with the shape assertion (the
spec's `ShapeMismatch`), producing no result. -/
theorem claim_C5_shape_mismatch (d1 d2 : List (List ℤ)) (k : ℤ) (g : ℕ → ℕ)
    (h : d1.length ≠ d2.length) :
    return_ranks d1 d2 k g = .error .shapeMismatch ∧
    return_imbalance d1 d2 k g = .error .shapeMismatch := by
  constructor
  · unfold return_ranks
    rw [if_neg h]
  · unfold return_imbalance
    rw [if_neg h]

theorem claim_C5_shape_mismatch_witness :
    return_ranks [[0], [1], [2], [3], [4]] [[0], [1], [2], [3], [4], [5]] 1 g0 =
      .error .shapeMismatch ∧
    return_imbalance [[0], [1], [2], [3], [4]] [[0], [1], [2], [3], [4], [5]]
      1 g0 = .error .shapeMismatch :=
  claim_C5_shape_mismatch [[0], [1], [2], [3], [4]]
    [[0], [1], [2], [3], [4], [5]] 1 g0 (by decide)

/-- Claim C6: on a valid input pair (equal row counts, 1 ≤ k ≤ M1-1), any
matrix returned by `_return_ranks` has exactly N rows and k columns. -/
theorem claim_C6_output_shape (d1 d2 : List (List ℤ)) (k : ℕ) (g : ℕ → ℕ)
    (R : List (List ℕ)) (hlen : d1.length = d2.length) (hk1 : 1 ≤ k)
    (hk2 : k ≤ numCols d1 - 1) (h : return_ranks d1 d2 (k : ℤ) g = .ok R) :
    R.length = d1.length ∧ ∀ row ∈ R, row.length = k := by
  obtain ⟨h1, h2⟩ := return_ranks_shape h
  refine ⟨h1, fun row hrow => ?_⟩
  rw [h2 row hrow, Int.toNat_natCast]

theorem claim_C6_output_shape_witness :
    ([[1], [1]] : List (List ℕ)).length =
      ([[0, 1], [1, 0]] : List (List ℤ)).length ∧
    ∀ row ∈ ([[1], [1]] : List (List ℕ)), row.length = 1 :=
  claim_C6_output_shape [[0, 1], [1, 0]] [[0, 1], [1, 0]] 1 g0 [[1], [1]]
    rfl (by decide) (by decide) (by decide)

/-- Claim C7: when every considered neighbour under distance 1 occurs in
the corresponding full row of `dist_indices_2` (no misses), the output of
`_return_ranks` does not depend on the random stream: two runs with
different streams coincide. -/
theorem claim_C7_determinism_on_hits (d1 d2 : List (List ℤ)) (k : ℤ)
    (g g' : ℕ → ℕ)
    (h : ∀ pr ∈ d1.zip d2, ∀ v ∈ (pr.1.drop 1).take k.toNat, v ∈ pr.2) :
    return_ranks d1 d2 k g = return_ranks d1 d2 k g' := by
  unfold return_ranks
  by_cases hlen : d1.length = d2.length
  · rw [if_pos hlen, if_pos hlen]
    by_cases hk : k < 0
    · rw [if_pos hk, if_pos hk]
    · rw [if_neg hk, if_neg hk, ranksLoop_g_indep g g' h 0]
  · rw [if_neg hlen, if_neg hlen]

theorem claim_C7_determinism_on_hits_witness :
    return_ranks [[0, 1], [1, 0]] [[0, 1], [1, 0]] 1 g0 =
      return_ranks [[0, 1], [1, 0]] [[0, 1], [1, 0]] 1 g1 :=
  claim_C7_determinism_on_hits [[0, 1], [1, 0]] [[0, 1], [1, 0]] 1 g0 g1
    (by decide)

/-- Claim C1: on identical neighbour matrices (rows rectangular, entries
unique per row, self at column 0) and 1 ≤ k ≤ M1-1, every conditional
rank at entry (i, j) is j+1 (the hit branch only), and the imbalance is
`mean(1..k) / (N/2)`; the output does not depend on the random stream. -/
theorem claim_C1_self_consistency (d : List (List ℤ)) (k : ℕ) (g : ℕ → ℕ)
    (hrect : ∀ row ∈ d, row.length = numCols d)
    (hnd : ∀ row ∈ d, row.Nodup)
    (hself : ∀ i, i < d.length → (d.getD i []).getD 0 0 = (i : ℤ))
    (hk1 : 1 ≤ k) (hk2 : k ≤ numCols d - 1) :
    return_ranks d d (k : ℤ) g =
      .ok (List.replicate d.length ((List.range k).map fun j => j + 1)) ∧
    return_imbalance d d (k : ℤ) g =
      .ok ((((List.range k).map fun j : ℕ => (j : ℚ) + 1).sum / (k : ℚ)) /
        ((d.length : ℚ) / 2)) := by
  have hM : k + 1 ≤ numCols d := by omega
  have hrows : ∀ r ∈ d, r.Nodup ∧ k + 1 ≤ r.length := fun r hr =>
    ⟨hnd r hr, by rw [hrect r hr]; exact hM⟩
  have hranks : return_ranks d d (k : ℤ) g =
      .ok (List.replicate d.length ((List.range k).map fun j => j + 1)) := by
    unfold return_ranks
    rw [if_pos rfl, if_neg (show ¬((k : ℤ)) < 0 by omega), Int.toNat_natCast,
      ranksLoop_self hrows 0]
  refine ⟨hranks, ?_⟩
  rw [return_imbalance_eq_map, hranks]
  simp only [Except.map]
  congr 1
  have hS : (((List.range k).map fun j => j + 1).map fun x : ℕ => (x : ℚ)).sum =
      ((List.range k).map fun j : ℕ => (j : ℚ) + 1).sum := by
    rw [List.map_map]
    refine congrArg List.sum (List.map_congr_left ?_)
    intro j hj
    simp only [Function.comp_apply]
    push_cast
    rfl
  have hnp : npMean (List.replicate d.length
        ((List.range k).map fun j => j + 1)) =
      ((d.length : ℚ) * (((List.range k).map fun j : ℕ => (j : ℚ) + 1).sum)) /
        ((d.length : ℚ) * (k : ℚ)) := by
    unfold npMean
    rw [List.map_replicate, List.map_replicate, List.sum_replicate,
      List.sum_replicate, hS, List.length_map, List.length_range,
      nsmul_eq_mul, smul_eq_mul]
    push_cast
    rfl
  rw [hnp]
  rcases Nat.eq_zero_or_pos d.length with hn | hn
  · rw [hn]
    norm_num
  · have hne : (d.length : ℚ) ≠ 0 := Nat.cast_ne_zero.mpr (by omega)
    rw [mul_div_mul_left _ _ hne]

theorem claim_C1_self_consistency_witness :
    return_ranks [[0, 1, 2, 3], [1, 0, 2, 3], [2, 3, 0, 1], [3, 2, 1, 0]]
      [[0, 1, 2, 3], [1, 0, 2, 3], [2, 3, 0, 1], [3, 2, 1, 0]]
      ((1 : ℕ) : ℤ) g0 =
      .ok (List.replicate
        ([[0, 1, 2, 3], [1, 0, 2, 3], [2, 3, 0, 1], [3, 2, 1, 0]] :
          List (List ℤ)).length ((List.range 1).map fun j => j + 1)) ∧
    return_imbalance [[0, 1, 2, 3], [1, 0, 2, 3], [2, 3, 0, 1], [3, 2, 1, 0]]
      [[0, 1, 2, 3], [1, 0, 2, 3], [2, 3, 0, 1], [3, 2, 1, 0]]
      ((1 : ℕ) : ℤ) g0 =
      .ok ((((List.range 1).map fun j : ℕ => (j : ℚ) + 1).sum / ((1 : ℕ) : ℚ)) /
        ((([[0, 1, 2, 3], [1, 0, 2, 3], [2, 3, 0, 1], [3, 2, 1, 0]] :
          List (List ℤ)).length : ℚ) / 2)) :=
  claim_C1_self_consistency
    [[0, 1, 2, 3], [1, 0, 2, 3], [2, 3, 0, 1], [3, 2, 1, 0]] 1 g0
    (by decide) (by decide) (by decide) (by decide) (by decide)

/-- Claim C3: for a neighbour v of point i (the j-th considered one under
distance 1) absent from row i of `dist_indices_2`, the rank stored by a
successful `_return_ranks` lies in `[M2, N)` and is the value of
`np.random.randint(M2, N)` on some draw of the stream; and `randint M2 N`
maps the residues `0 .. N-M2-1` of the raw draw bijectively onto
`[M2, N)`, so a uniform raw draw gives a uniform rank over `[M2, N)`. -/
theorem claim_C3_miss_uniform_fallback (d1 d2 : List (List ℤ)) (k : ℤ)
    (g : ℕ → ℕ) (R : List (List ℕ)) (i j : ℕ) (r1 r2 : List ℤ) (v : ℤ)
    (h : return_ranks d1 d2 k g = .ok R)
    (hr1 : d1[i]? = some r1) (hr2 : d2[i]? = some r2)
    (hj : j < k.toNat) (hv : r1[j + 1]? = some v) (hmiss : v ∉ r2) :
    (numCols d2 ≤ (R.getD i []).getD j 0 ∧
      (R.getD i []).getD j 0 < d1.length) ∧
    (∃ c, randint (numCols d2) d1.length (g c) =
      .ok ((R.getD i []).getD j 0)) ∧
    (∀ t, numCols d2 ≤ t → t < d1.length →
      ∃ r, r < d1.length - numCols d2 ∧
        randint (numCols d2) d1.length r = .ok t ∧
        ∀ r', r' < d1.length - numCols d2 →
          randint (numCols d2) d1.length r' = .ok t → r' = r) := by
  obtain ⟨-, -, -, hspec⟩ := return_ranks_ok_inv h
  obtain ⟨rr, ci, ci', hRi, hrow⟩ := hspec i r1 r2 hr1 hr2
  obtain ⟨-, -, hjspec⟩ := rowRanks_ok_inv hrow
  obtain ⟨v', x, hv', hx, hhitx, hmissx⟩ := hjspec j hj
  rw [hv] at hv'
  have hvv := Option.some.inj hv'
  subst hvv
  obtain ⟨cc, hcc⟩ := hmissx (npWhereEq_eq_nil_iff.mpr hmiss)
  have hentry : (R.getD i []).getD j 0 = x := by
    rw [getD_of_getElem? hRi]
    exact getD_of_getElem? hx
  obtain ⟨hlo, hhi⟩ := randint_ok hcc
  rw [hentry]
  refine ⟨⟨hlo, hhi⟩, ⟨cc, hcc⟩, ?_⟩
  intro t ht1 ht2
  have hlt : numCols d2 < d1.length := by omega
  refine ⟨t - numCols d2, by omega, ?_, ?_⟩
  · rw [randint_ok_lt _ hlt]
    congr 1
    rw [Nat.mod_eq_of_lt (by omega)]
    omega
  · intro r' hr' heq
    rw [randint_ok_lt _ hlt] at heq
    have heq2 := Except.ok.inj heq
    rw [Nat.mod_eq_of_lt hr'] at heq2
    omega

theorem claim_C3_miss_uniform_fallback_witness :
    (numCols [[0], [1], [2]] ≤
        (([[1], [1], [1]] : List (List ℕ)).getD 0 []).getD 0 0 ∧
      (([[1], [1], [1]] : List (List ℕ)).getD 0 []).getD 0 0 <
        ([[0, 2, 1], [1, 2, 0], [2, 0, 1]] : List (List ℤ)).length) ∧
    (∃ c, randint (numCols [[0], [1], [2]])
        ([[0, 2, 1], [1, 2, 0], [2, 0, 1]] : List (List ℤ)).length (g0 c) =
      .ok ((([[1], [1], [1]] : List (List ℕ)).getD 0 []).getD 0 0)) ∧
    (∀ t, numCols [[0], [1], [2]] ≤ t →
      t < ([[0, 2, 1], [1, 2, 0], [2, 0, 1]] : List (List ℤ)).length →
      ∃ r, r < ([[0, 2, 1], [1, 2, 0], [2, 0, 1]] : List (List ℤ)).length -
          numCols [[0], [1], [2]] ∧
        randint (numCols [[0], [1], [2]])
          ([[0, 2, 1], [1, 2, 0], [2, 0, 1]] : List (List ℤ)).length r =
          .ok t ∧
        ∀ r', r' < ([[0, 2, 1], [1, 2, 0], [2, 0, 1]] :
            List (List ℤ)).length - numCols [[0], [1], [2]] →
          randint (numCols [[0], [1], [2]])
            ([[0, 2, 1], [1, 2, 0], [2, 0, 1]] : List (List ℤ)).length r' =
            .ok t → r' = r) :=
  claim_C3_miss_uniform_fallback [[0, 2, 1], [1, 2, 0], [2, 0, 1]]
    [[0], [1], [2]] 1 g0 [[1], [1], [1]] 0 0 [0, 2, 1] [0] 2
    (by decide) (by decide) (by decide) (by decide) (by decide) (by decide)

/-- Claim C8: when the j-th considered neighbour v of point i does occur
in row i of `dist_indices_2`, the stored conditional rank is the first
(lowest-index) position of v in that row. -/
theorem claim_C8_first_match (d1 d2 : List (List ℤ)) (k : ℤ) (g : ℕ → ℕ)
    (R : List (List ℕ)) (i j : ℕ) (r1 r2 : List ℤ) (v : ℤ)
    (h : return_ranks d1 d2 k g = .ok R)
    (hr1 : d1[i]? = some r1) (hr2 : d2[i]? = some r2)
    (hj : j < k.toNat) (hv : r1[j + 1]? = some v) (hhit : v ∈ r2) :
    (R.getD i []).getD j 0 < r2.length ∧
    r2.getD ((R.getD i []).getD j 0) 0 = v ∧
    ∀ q, q < (R.getD i []).getD j 0 → r2.getD q 0 ≠ v := by
  obtain ⟨-, -, -, hspec⟩ := return_ranks_ok_inv h
  obtain ⟨rr, ci, ci', hRi, hrow⟩ := hspec i r1 r2 hr1 hr2
  obtain ⟨-, -, hjspec⟩ := rowRanks_ok_inv hrow
  obtain ⟨v', x, hv', hx, hhitx, hmissx⟩ := hjspec j hj
  rw [hv] at hv'
  have hvv := Option.some.inj hv'
  subst hvv
  have hne : npWhereEq v r2 ≠ [] := fun hc => (npWhereEq_eq_nil_iff.mp hc) hhit
  have hxval := hhitx hne
  have hentry : (R.getD i []).getD j 0 = x := by
    rw [getD_of_getElem? hRi]
    exact getD_of_getElem? hx
  rcases hw : npWhereEq v r2 with _ | ⟨q0, t0⟩
  · exact absurd hw hne
  · obtain ⟨hq0, hq0v, hq0min⟩ := npWhereEq_head hw
    rw [hw] at hxval
    simp only [List.headD_cons] at hxval
    rw [hentry, hxval]
    exact ⟨hq0, hq0v, hq0min⟩

theorem claim_C8_first_match_witness :
    (([[2], [2]] : List (List ℕ)).getD 0 []).getD 0 0 <
      ([0, 1, 2] : List ℤ).length ∧
    ([0, 1, 2] : List ℤ).getD
      ((([[2], [2]] : List (List ℕ)).getD 0 []).getD 0 0) 0 = 2 ∧
    ∀ q, q < (([[2], [2]] : List (List ℕ)).getD 0 []).getD 0 0 →
      ([0, 1, 2] : List ℤ).getD q 0 ≠ 2 :=
  claim_C8_first_match [[0, 2, 1], [1, 0, 2]] [[0, 1, 2], [1, 2, 0]] 1 g0
    [[2], [2]] 0 0 [0, 2, 1] [0, 1, 2] 2
    (by decide) (by decide) (by decide) (by decide) (by decide) (by decide)

/-- Claim C9: over the mutation-explicit store, a returning run of
`_return_ranks` or `_return_imbalance` leaves both input matrices exactly
as they were: the only store instruction targets the freshly allocated
`conditional_ranks` array. -/
theorem claim_C9_no_input_mutation (s sr : MemState) (q : ℚ) (k : ℤ)
    (g : ℕ → ℕ) :
    (state_return_ranks s k g = .ok sr →
      sr.dist_indices_1 = s.dist_indices_1 ∧
      sr.dist_indices_2 = s.dist_indices_2) ∧
    (state_return_imbalance s k g = .ok (q, sr) →
      sr.dist_indices_1 = s.dist_indices_1 ∧
      sr.dist_indices_2 = s.dist_indices_2) :=
  ⟨fun h => state_return_ranks_frame h, fun h => state_return_imbalance_frame h⟩

theorem claim_C9_no_input_mutation_witness :
    ((⟨[[0, 1], [1, 0]], [[0, 1], [1, 0]], [[1], [1]], 0⟩ :
        MemState).dist_indices_1 =
      (⟨[[0, 1], [1, 0]], [[0, 1], [1, 0]], [], 0⟩ :
        MemState).dist_indices_1 ∧
     (⟨[[0, 1], [1, 0]], [[0, 1], [1, 0]], [[1], [1]], 0⟩ :
        MemState).dist_indices_2 =
      (⟨[[0, 1], [1, 0]], [[0, 1], [1, 0]], [], 0⟩ :
        MemState).dist_indices_2) ∧
    ((⟨[[0, 1], [1, 0]], [[0, 1], [1, 0]], [[1], [1]], 0⟩ :
        MemState).dist_indices_1 =
      (⟨[[0, 1], [1, 0]], [[0, 1], [1, 0]], [], 0⟩ :
        MemState).dist_indices_1 ∧
     (⟨[[0, 1], [1, 0]], [[0, 1], [1, 0]], [[1], [1]], 0⟩ :
        MemState).dist_indices_2 =
      (⟨[[0, 1], [1, 0]], [[0, 1], [1, 0]], [], 0⟩ :
        MemState).dist_indices_2) :=
  ⟨(claim_C9_no_input_mutation
      ⟨[[0, 1], [1, 0]], [[0, 1], [1, 0]], [], 0⟩
      ⟨[[0, 1], [1, 0]], [[0, 1], [1, 0]], [[1], [1]], 0⟩ 1 1 g0).1
    (by decide),
   (claim_C9_no_input_mutation
      ⟨[[0, 1], [1, 0]], [[0, 1], [1, 0]], [], 0⟩
      ⟨[[0, 1], [1, 0]], [[0, 1], [1, 0]], [[1], [1]], 0⟩ 1 1 g0).2
    (by
      have h1 : state_return_ranks
          (⟨[[0, 1], [1, 0]], [[0, 1], [1, 0]], [], 0⟩ : MemState) 1 g0 =
          .ok ⟨[[0, 1], [1, 0]], [[0, 1], [1, 0]], [[1], [1]], 0⟩ := by
        decide
      unfold state_return_imbalance
      rw [if_pos rfl, h1]
      norm_num [npMean])⟩

/-- Claim C10: the miss fallback is total only when M2 < N.  If a run
returns, every miss it processed had M2 < N; and a run that reaches a
miss (first neighbour of the first point absent from row 0 of
`dist_indices_2`) with M2 ≥ N fails with the `ValueError` raised by
`np.random.randint` on the empty range `[M2, N)`. -/
theorem claim_C10_miss_fallback_totality (d1 d2 : List (List ℤ)) (k : ℤ)
    (g : ℕ → ℕ) :
    (∀ (R : List (List ℕ)) (i j : ℕ) (r1 r2 : List ℤ) (v : ℤ),
      return_ranks d1 d2 k g = .ok R → d1[i]? = some r1 →
      d2[i]? = some r2 → j < k.toNat → r1[j + 1]? = some v → v ∉ r2 →
      numCols d2 < d1.length) ∧
    (∀ (r1 : List ℤ) (t1 : List (List ℤ)) (r2 : List ℤ)
        (t2 : List (List ℤ)) (v : ℤ),
      d1 = r1 :: t1 → d2 = r2 :: t2 → d1.length = d2.length →
      1 ≤ k → k ≤ (r1.length : ℤ) - 1 → r1[1]? = some v → v ∉ r2 →
      d1.length ≤ numCols d2 →
      return_ranks d1 d2 k g = .error .valueError) := by
  constructor
  · intro R i j r1 r2 v h hr1 hr2 hj hv hmiss
    obtain ⟨-, -, -, hspec⟩ := return_ranks_ok_inv h
    obtain ⟨rr, ci, ci', hRi, hrow⟩ := hspec i r1 r2 hr1 hr2
    obtain ⟨-, -, hjspec⟩ := rowRanks_ok_inv hrow
    obtain ⟨v', x, hv', hx, -, hmissx⟩ := hjspec j hj
    rw [hv] at hv'
    have hvv := Option.some.inj hv'
    subst hvv
    obtain ⟨cc, hcc⟩ := hmissx (npWhereEq_eq_nil_iff.mpr hmiss)
    obtain ⟨hlo, hhi⟩ := randint_ok hcc
    omega
  · intro r1 t1 r2 t2 v hd1 hd2 hlen hk1 hk2 hv hmiss hM
    subst hd1
    subst hd2
    have hkt1 : 1 ≤ k.toNat := by omega
    have hidxlen : k.toNat ≤ ((r1.drop 1).take k.toNat).length := by
      rw [List.length_take, List.length_drop]
      omega
    simp only [return_ranks, if_pos hlen, if_neg (show ¬k < 0 by omega),
      List.zip_cons_cons,
      ranksLoop_head_err (rowRanks_err_miss hkt1 hidxlen hv hmiss hM)]

theorem claim_C10_miss_fallback_totality_witness :
    return_ranks [[0, 9], [1, 9]] [[0, 5, 6], [1, 5, 6]] 1 g0 =
      .error .valueError :=
  (claim_C10_miss_fallback_totality [[0, 9], [1, 9]] [[0, 5, 6], [1, 5, 6]]
      1 g0).2 [0, 9] [[1, 9]] [0, 5, 6] [[1, 5, 6]] 9 rfl rfl rfl
    (by decide) (by decide) (by decide) (by decide) (by decide)

